import Mathlib

/-!
Shallow embedding of the snippet store (src/snippets.py).

The persistent state is the single table `snippets(keyword unique, message)`,
modelled as a list of rows in storage order.  Each store operation is a state
transformer `Table → args → Table × result`; a committed transaction is the
returned table, a rollback returns the original table.  SQL statements used by
the source are embedded as list functions (`selectMessage`, `updateRows`,
`deleteRows`, `runInsert`), and the `psycopg2.IntegrityError` handling in `put`
is modelled by an explicit fault kind together with an optional injected fault.
-/

namespace Snippets

/-- A row of the `snippets` table: `(keyword, message)`. -/
abbrev Row := String × String

/-- The `snippets` table in storage order. -/
abbrev Table := List Row

/-- Kinds of persistence fault that the insert in `put` can raise.
`uniqueViolation` is the uniqueness conflict on `keyword`; `otherIntegrity`
is any other `psycopg2.IntegrityError` (another kind of constraint
violation); `otherFault` is a non-integrity persistence fault such as a
connection loss. -/
inductive Fault
  | uniqueViolation
  | otherIntegrity
  | otherFault
deriving DecidableEq

/-- Whether a fault is caught by `except psycopg2.IntegrityError` in `put`. -/
def Fault.isIntegrityError : Fault → Bool
  | Fault.uniqueViolation => true
  | Fault.otherIntegrity => true
  | Fault.otherFault => false

/-- Embeds `select message from snippets where keyword = name` followed by
`fetchone()`: the first row with the given keyword, if any. -/
def selectMessage (t : Table) (name : String) : Option String :=
  (t.find? (fun r => r.1 == name)).map Prod.snd

/-- Embeds `update snippets set message = msg where keyword = name`. -/
def updateRows (t : Table) (name msg : String) : Table :=
  t.map (fun r => if r.1 == name then (r.1, msg) else r)

/-- Embeds `delete from snippets where keyword = name`. -/
def deleteRows (t : Table) (name : String) : Table :=
  t.filter (fun r => !(r.1 == name))

/-- Embeds `insert into snippets values (name, snippet)`.  With no injected
fault the statement raises the uniqueness violation exactly when a row with
this keyword exists (the unique constraint on `keyword`); an injected fault
models the backend raising some other persistence fault instead. -/
def runInsert (t : Table) (name snippet : String) (inj : Option Fault) :
    Except Fault Table :=
  match inj with
  | some f => Except.error f
  | none =>
    if t.any (fun r => r.1 == name) then Except.error Fault.uniqueViolation
    else Except.ok (t ++ [(name, snippet)])

/-- Embeds `put(name, snippet)` with a possibly injected persistence fault in
the insert.  The source tries the insert; on `psycopg2.IntegrityError` it rolls
back and issues the update instead, returning `(name, snippet)` on either
path; any other exception escapes the `with connection` block, which rolls the
transaction back, so the table is unchanged and the fault propagates. -/
def putFault (t : Table) (name snippet : String) (inj : Option Fault) :
    Table × Except Fault (String × String) :=
  match runInsert t name snippet inj with
  | Except.ok t2 => (t2, Except.ok (name, snippet))
  | Except.error e =>
    if e.isIntegrityError then (updateRows t name snippet, Except.ok (name, snippet))
    else (t, Except.error e)

/-- Embeds `put(name, snippet)` on the fault-free path: insert if the keyword
is absent, otherwise the update fallback; returns `(name, snippet)` either
way. -/
def put (t : Table) (name snippet : String) : Table × (String × String) :=
  if t.any (fun r => r.1 == name) then (updateRows t name snippet, (name, snippet))
  else (t ++ [(name, snippet)], (name, snippet))

/-- Embeds `get(name)`: a select only; returns the stored message, or the
string sentinel when no row exists. -/
def get (t : Table) (name : String) : Table × String :=
  (t, match selectMessage t name with
      | none => "404 Snippet Not Found"
      | some m => m)

/-- Embeds `post(name, snippet)`: select first; update and return
`(name, snippet)` when the row exists, otherwise return the sentinel pair
without mutating. -/
def post (t : Table) (name snippet : String) : Table × (String × String) :=
  match selectMessage t name with
  | some _ => (updateRows t name snippet, (name, snippet))
  | none => (t, (name, "404 Snippet Not Found"))

/-- Embeds `delete(name)`: select first; delete the row and return the name
when it exists, otherwise return the sentinel without mutating. -/
def delete (t : Table) (name : String) : Table × String :=
  match selectMessage t name with
  | some _ => (deleteRows t name, name)
  | none => (t, "404 Snippet Not Found")

/-- Result shape of `catalog()`: the source returns either the sentinel string
or the list of keywords. -/
inductive CatalogResult
  | sentinel (s : String)
  | keywords (ks : List String)
deriving DecidableEq

/-- Embeds `catalog()`: `select keyword from snippets order by keyword`, then
the empty check; the `order by` is modelled as sorting the keyword column
ascending. -/
def catalog (t : Table) : Table × CatalogResult :=
  let ks := List.insertionSort (fun a b => a ≤ b) (t.map Prod.fst)
  (t, if ks.isEmpty then CatalogResult.sentinel "404 No Snippets Found"
      else CatalogResult.keywords ks)

/-- Result shape of `search(string)`: the source returns either the tuple
`(fixed message, queried string)` or the list of matching rows. -/
inductive SearchResult
  | sentinel (msg queried : String)
  | rows (rs : List Row)
deriving DecidableEq

/-- SQL `LIKE` matching over characters for escape-free patterns: `%` matches
any sequence of characters, `_` matches any single character, every other
pattern character matches itself.  The default LIKE escape character
backslash is not modelled, so theorems quantifying over search strings
restrict them to backslash-free strings. -/
def likeMatch : List Char → List Char → Bool
  | [], cs => cs.isEmpty
  | p :: pt, cs =>
    if p = '%' then
      likeMatch pt cs ||
        (match cs with
         | [] => false
         | _ :: ct => likeMatch (p :: pt) ct)
    else
      match cs with
      | [] => false
      | c :: ct => (if p = '_' then true else p == c) && likeMatch pt ct
termination_by ps cs => (ps.length, cs.length)

/-- The pattern that `search` builds by direct string formatting:
`'%{0}%'.format(string)`. -/
def likePattern (string : String) : List Char := ("%" ++ string ++ "%").data

/-- Embeds `search(string)`: the source interpolates the raw search string
into the SQL text, `select * from snippets where message like '%string%'`,
then performs the empty check.  The embedding models the resulting query only
for search strings that keep that SQL well formed and escape free: a single
quote in the string ends the SQL string literal early (a syntax error, or
execution of injected statements), and a backslash acts as the default LIKE
escape character; neither path is modelled, so theorems quantifying over
search strings exclude both characters. -/
def search (t : Table) (string : String) : Table × SearchResult :=
  let rs := t.filter (fun r => likeMatch (likePattern string) r.2.data)
  (t, if rs.isEmpty then
        SearchResult.sentinel "404 No Matching Snippets Found Containing" string
      else SearchResult.rows rs)

/-- One store operation, as invoked by the CLI layer. -/
inductive Op
  | putOp (name snippet : String)
  | getOp (name : String)
  | postOp (name snippet : String)
  | deleteOp (name : String)
  | catalogOp
  | searchOp (s : String)

/-- The table left behind by one operation. -/
def applyOp (t : Table) : Op → Table
  | Op.putOp n s => (put t n s).1
  | Op.getOp n => (get t n).1
  | Op.postOp n s => (post t n s).1
  | Op.deleteOp n => (delete t n).1
  | Op.catalogOp => (catalog t).1
  | Op.searchOp s => (search t s).1

/-- The table after a sequence of store operations. -/
def applyOps (t : Table) (ops : List Op) : Table := ops.foldl applyOp t

/-- The storage-layer invariant: at most one row per keyword. -/
def UniqueKeys (t : Table) : Prop := (t.map Prod.fst).Nodup

instance (t : Table) : Decidable (UniqueKeys t) := List.nodupDecidable _

/-! Basic lemmas about the embedded SQL statements. -/

theorem put_eq_putFault (t : Table) (name snippet : String) :
    putFault t name snippet none = ((put t name snippet).1, Except.ok (put t name snippet).2) := by
  by_cases h : (t.any (fun r => r.1 == name)) = true
  · simp [putFault, runInsert, put, h, Fault.isIntegrityError]
  · simp [putFault, runInsert, put, h]

theorem selectMessage_cons (r : Row) (t : Table) (n : String) :
    selectMessage (r :: t) n = if r.1 == n then some r.2 else selectMessage t n := by
  simp only [selectMessage, List.find?_cons]
  by_cases h : (r.1 == n) = true <;> simp [h]

theorem updateRows_cons (r : Row) (t : Table) (n m : String) :
    updateRows (r :: t) n m = (if r.1 == n then (r.1, m) else r) :: updateRows t n m := rfl

theorem any_key_iff (t : Table) (n : String) :
    t.any (fun r => r.1 == n) = true ↔ n ∈ t.map Prod.fst := by
  simp [List.any_eq_true, List.mem_map, beq_iff_eq]

theorem selectMessage_eq_none_iff (t : Table) (n : String) :
    selectMessage t n = none ↔ n ∉ t.map Prod.fst := by
  induction t with
  | nil => simp [selectMessage]
  | cons r t ih =>
    rw [selectMessage_cons, List.map_cons]
    by_cases hr : (r.1 == n) = true
    · have he : r.1 = n := by simpa using hr
      simp [hr, he]
    · have hne : r.1 ≠ n := by simpa using hr
      simp [hr, ih, List.mem_cons, Ne.symm hne]

theorem selectMessage_of_mem (t : Table) (n m : String) (hu : UniqueKeys t)
    (hm : (n, m) ∈ t) : selectMessage t n = some m := by
  induction t with
  | nil => cases hm
  | cons r t ih =>
    rw [selectMessage_cons]
    have hu2 : r.1 ∉ t.map Prod.fst ∧ UniqueKeys t := by
      have h := hu
      simp only [UniqueKeys, List.map_cons, List.nodup_cons] at h
      exact h
    rcases List.mem_cons.mp hm with hm1 | hm1
    · rw [← hm1]
      simp
    · have hr : (r.1 == n) = false := by
        have hn : n ∈ t.map Prod.fst := List.mem_map.mpr ⟨(n, m), hm1, rfl⟩
        simp only [beq_eq_false_iff_ne]
        rintro rfl
        exact hu2.1 hn
      simp only [hr, Bool.false_eq_true, if_false]
      exact ih hu2.2 hm1

theorem fst_update (r : Row) (n m : String) :
    (if r.1 == n then (r.1, m) else r).1 = r.1 := by
  by_cases h : (r.1 == n) = true <;> simp [h]

theorem keys_updateRows (t : Table) (n m : String) :
    (updateRows t n m).map Prod.fst = t.map Prod.fst := by
  induction t with
  | nil => rfl
  | cons r t ih =>
    rw [updateRows_cons, List.map_cons, List.map_cons, fst_update, ih]

theorem selectMessage_updateRows_self (t : Table) (n m : String)
    (h : n ∈ t.map Prod.fst) : selectMessage (updateRows t n m) n = some m := by
  induction t with
  | nil => cases h
  | cons r t ih =>
    rw [updateRows_cons]
    by_cases hr : (r.1 == n) = true
    · rw [if_pos hr, selectMessage_cons]
      simp [hr]
    · rw [if_neg hr, selectMessage_cons, if_neg hr]
      apply ih
      simp only [List.map_cons, List.mem_cons] at h
      rcases h with h1 | h1
      · exact absurd (by simp [h1]) hr
      · exact h1

theorem selectMessage_updateRows_ne (t : Table) (n m k : String) (hk : k ≠ n) :
    selectMessage (updateRows t n m) k = selectMessage t k := by
  induction t with
  | nil => rfl
  | cons r t ih =>
    rw [updateRows_cons]
    by_cases hr : (r.1 == n) = true
    · have hn : r.1 = n := by simpa using hr
      rw [if_pos hr, selectMessage_cons, selectMessage_cons]
      have h1 : ((r.1, m).1 == k) = false := by simp [hn, Ne.symm hk]
      have h2 : (r.1 == k) = false := by simp [hn, Ne.symm hk]
      simp [h1, h2, ih]
    · rw [if_neg hr, selectMessage_cons, selectMessage_cons]
      by_cases hrk : (r.1 == k) = true
      · simp [hrk]
      · have h2 : (r.1 == k) = false := by simpa using hrk
        simp [h2, ih]

theorem not_mem_keys_deleteRows (t : Table) (n : String) :
    n ∉ (deleteRows t n).map Prod.fst := by
  intro h
  rcases List.mem_map.mp h with ⟨r, hr, hfst⟩
  rcases List.mem_filter.mp hr with ⟨_, hpred⟩
  simp [hfst] at hpred

theorem mem_deleteRows_iff (t : Table) (n : String) (r : Row) :
    r ∈ deleteRows t n ↔ r ∈ t ∧ r.1 ≠ n := by
  simp [deleteRows, List.mem_filter]

theorem countP_key_updateRows (t : Table) (k n m : String) :
    (updateRows t n m).countP (fun r => r.1 == k) = t.countP (fun r => r.1 == k) := by
  induction t with
  | nil => rfl
  | cons r t ih =>
    rw [updateRows_cons, List.countP_cons, List.countP_cons, ih, fst_update]

theorem countP_key_eq_zero (t : Table) (n : String) (h : n ∉ t.map Prod.fst) :
    t.countP (fun r => r.1 == n) = 0 := by
  rw [List.countP_eq_zero]
  intro a ha
  simp only [beq_iff_eq]
  intro hf
  exact h (List.mem_map.mpr ⟨a, ha, hf⟩)

theorem countP_key_eq_one (t : Table) (n : String) (hu : UniqueKeys t)
    (h : n ∈ t.map Prod.fst) : t.countP (fun r => r.1 == n) = 1 := by
  induction t with
  | nil => cases h
  | cons r t ih =>
    have hu2 : r.1 ∉ t.map Prod.fst ∧ UniqueKeys t := by
      have h2 := hu
      simp only [UniqueKeys, List.map_cons, List.nodup_cons] at h2
      exact h2
    rw [List.countP_cons]
    by_cases hr : (r.1 == n) = true
    · have he : r.1 = n := by simpa using hr
      have h0 : t.countP (fun r => r.1 == n) = 0 :=
        countP_key_eq_zero t n (he ▸ hu2.1)
      simp [hr, h0]
    · have hne : r.1 ≠ n := by simpa using hr
      simp only [List.map_cons, List.mem_cons] at h
      rcases h with h1 | h1
      · exact absurd h1.symm hne
      · simp [hr, ih hu2.2 h1]

theorem updateRows_of_not_mem (t : Table) (n m : String) (h : n ∉ t.map Prod.fst) :
    updateRows t n m = t := by
  induction t with
  | nil => rfl
  | cons r t ih =>
    simp only [List.map_cons, List.mem_cons] at h
    push_neg at h
    have hne : ¬((r.1 == n) = true) := by simpa using Ne.symm h.1
    rw [updateRows_cons, if_neg hne, ih h.2]

theorem uniqueKeys_append (t : Table) (n s : String) (hu : UniqueKeys t)
    (h : n ∉ t.map Prod.fst) : UniqueKeys (t ++ [(n, s)]) := by
  unfold UniqueKeys at hu ⊢
  rw [List.map_append, List.nodup_append]
  refine ⟨hu, by simp, ?_⟩
  intro a ha hb
  simp only [List.map_cons, List.map_nil, List.mem_cons, List.not_mem_nil, or_false] at hb
  subst hb
  exact h ha

theorem insertionSort_cons_not_empty (a : String) (l : List String) :
    (List.insertionSort (fun x y => x ≤ y) (a :: l)).isEmpty = false := by
  have hlen := (List.perm_insertionSort (fun x y => x ≤ y) (a :: l)).length_eq
  cases hs : List.insertionSort (fun x y => x ≤ y) (a :: l) with
  | nil =>
    rw [hs] at hlen
    simp at hlen
  | cons b m => rfl

/-! Claim theorems. -/

/-- Claim C6: `get(name)` returns the stored message when a row with that
keyword exists, and the plain string sentinel "404 Snippet Not Found" when no
such row exists; either way it is a returned value, not a fault. -/
theorem get_spec (t : Table) (n : String) (hu : UniqueKeys t) :
    (∀ m, (n, m) ∈ t → get t n = (t, m)) ∧
    (n ∉ t.map Prod.fst → get t n = (t, "404 Snippet Not Found")) := by
  constructor
  · intro m hm
    simp [get, selectMessage_of_mem t n m hu hm]
  · intro hn
    simp [get, (selectMessage_eq_none_iff t n).mpr hn]

theorem get_spec_witness :
    UniqueKeys ([("a", "x")] : Table) ∧
    get ([("a", "x")] : Table) "a" = ([("a", "x")], "x") ∧
    get ([("a", "x")] : Table) "b" = ([("a", "x")], "404 Snippet Not Found") := by
  refine ⟨by decide, ?_, ?_⟩
  · exact (get_spec [("a", "x")] "a" (by decide)).1 "x" (by simp)
  · exact (get_spec [("a", "x")] "b" (by decide)).2 (by simp)

/-- Claim C9: `get(name)` called twice with no intervening mutation returns
the same value both times, and neither call changes the table. -/
theorem get_idempotent (t : Table) (n : String) :
    (get t n).1 = t ∧ get ((get t n).1) n = get t n :=
  ⟨rfl, rfl⟩

/-- Claim C2: `post(name, snippet)` on an absent keyword returns the pair
`(name, "404 Snippet Not Found")` and leaves the table unchanged; on a present
keyword it updates that row's message to `snippet` (all other rows and the
keyword column unchanged) and returns `(name, snippet)`; it never creates a
row. -/
theorem post_spec (t : Table) (n s : String) :
    (selectMessage t n = none →
      post t n s = (t, (n, "404 Snippet Not Found"))) ∧
    (∀ m, selectMessage t n = some m →
      (post t n s).2 = (n, s) ∧
      (post t n s).1.map Prod.fst = t.map Prod.fst ∧
      selectMessage (post t n s).1 n = some s ∧
      (∀ k, k ≠ n → selectMessage (post t n s).1 k = selectMessage t k)) := by
  constructor
  · intro h
    simp [post, h]
  · intro m h
    have hp : post t n s = (updateRows t n s, (n, s)) := by simp [post, h]
    rw [hp]
    refine ⟨rfl, keys_updateRows t n s, ?_, ?_⟩
    · apply selectMessage_updateRows_self
      by_contra hn
      rw [(selectMessage_eq_none_iff t n).mpr hn] at h
      cases h
    · intro k hk
      exact selectMessage_updateRows_ne t n s k hk

theorem post_spec_witness :
    post ([] : Table) "missing" "v" = ([], ("missing", "404 Snippet Not Found")) ∧
    (post [("a", "x")] "a" "y").2 = ("a", "y") ∧
    selectMessage (post [("a", "x")] "a" "y").1 "a" = some "y" := by
  refine ⟨(post_spec [] "missing" "v").1 rfl, ?_, ?_⟩
  · exact ((post_spec [("a", "x")] "a" "y").2 "x" rfl).1
  · exact ((post_spec [("a", "x")] "a" "y").2 "x" rfl).2.2.1

/-- Claim C7: `delete(name)` on a present keyword removes exactly that row and
returns the name, after which `get` returns the sentinel and a second
`delete` returns the sentinel without failing; on an absent keyword it
returns the sentinel and leaves the table unchanged. -/
theorem delete_spec (t : Table) (n : String) :
    (n ∉ t.map Prod.fst → delete t n = (t, "404 Snippet Not Found")) ∧
    (n ∈ t.map Prod.fst →
      (delete t n).2 = n ∧
      (∀ r : Row, r ∈ (delete t n).1 ↔ r ∈ t ∧ r.1 ≠ n) ∧
      get (delete t n).1 n = ((delete t n).1, "404 Snippet Not Found") ∧
      delete (delete t n).1 n = ((delete t n).1, "404 Snippet Not Found")) := by
  constructor
  · intro h
    simp [delete, (selectMessage_eq_none_iff t n).mpr h]
  · intro h
    have hsel : ∃ m, selectMessage t n = some m := by
      cases hs : selectMessage t n with
      | none => exact absurd h ((selectMessage_eq_none_iff t n).mp hs)
      | some m => exact ⟨m, rfl⟩
    rcases hsel with ⟨m, hm⟩
    have hd : delete t n = (deleteRows t n, n) := by simp [delete, hm]
    rw [hd]
    have hnone : selectMessage (deleteRows t n) n = none :=
      (selectMessage_eq_none_iff _ n).mpr (not_mem_keys_deleteRows t n)
    refine ⟨rfl, fun r => mem_deleteRows_iff t n r, ?_, ?_⟩
    · simp [get, hnone]
    · simp [delete, hnone]

theorem delete_spec_witness :
    delete ([] : Table) "k" = ([], "404 Snippet Not Found") ∧
    (delete [("k", "v")] "k").2 = "k" ∧
    get (delete [("k", "v")] "k").1 "k" =
      ((delete [("k", "v")] "k").1, "404 Snippet Not Found") ∧
    delete (delete [("k", "v")] "k").1 "k" =
      ((delete [("k", "v")] "k").1, "404 Snippet Not Found") := by
  refine ⟨(delete_spec [] "k").1 (by simp), ?_, ?_, ?_⟩
  · exact ((delete_spec [("k", "v")] "k").2 (by simp)).1
  · exact ((delete_spec [("k", "v")] "k").2 (by simp)).2.2.1
  · exact ((delete_spec [("k", "v")] "k").2 (by simp)).2.2.2

/-- Claim C1: `put(n, x)` then `put(n, y)` (from any table satisfying the
uniqueness invariant) leaves exactly one row with keyword `n`, whose message
is `y`, so a subsequent `get(n)` returns `y`; both calls return the
`(name, snippet)` pair they were given, on the insert path as well as on the
update-on-conflict fallback. -/
theorem put_upsert (t : Table) (n x y : String) (hu : UniqueKeys t) :
    ∀ t1 p1 t2 p2, put t n x = (t1, p1) → put t1 n y = (t2, p2) →
      p1 = (n, x) ∧ p2 = (n, y) ∧
      t2.countP (fun r => r.1 == n) = 1 ∧ get t2 n = (t2, y) := by
  intro t1 p1 t2 p2 e1 e2
  by_cases h : n ∈ t.map Prod.fst
  · have ha : (t.any (fun r => r.1 == n)) = true := (any_key_iff t n).mpr h
    have h1 : put t n x = (updateRows t n x, (n, x)) := by simp [put, ha]
    rw [h1] at e1
    injection e1 with e1a e1b
    subst e1a
    subst e1b
    have h2 : n ∈ (updateRows t n x).map Prod.fst := by
      rw [keys_updateRows]
      exact h
    have ha2 : ((updateRows t n x).any (fun r => r.1 == n)) = true :=
      (any_key_iff _ n).mpr h2
    have hp2 : put (updateRows t n x) n y =
        (updateRows (updateRows t n x) n y, (n, y)) := by simp [put, ha2]
    rw [hp2] at e2
    injection e2 with e2a e2b
    subst e2a
    subst e2b
    refine ⟨rfl, rfl, ?_, ?_⟩
    · rw [countP_key_updateRows, countP_key_updateRows]
      exact countP_key_eq_one t n hu h
    · have hs : selectMessage (updateRows (updateRows t n x) n y) n = some y :=
        selectMessage_updateRows_self (updateRows t n x) n y h2
      simp [get, hs]
  · have ha : (t.any (fun r => r.1 == n)) = false :=
      Bool.eq_false_iff.mpr (fun hc => h ((any_key_iff t n).mp hc))
    have h1 : put t n x = (t ++ [(n, x)], (n, x)) := by simp [put, ha]
    rw [h1] at e1
    injection e1 with e1a e1b
    subst e1a
    subst e1b
    have h2 : n ∈ (t ++ [(n, x)]).map Prod.fst := by simp
    have ha2 : ((t ++ [(n, x)]).any (fun r => r.1 == n)) = true :=
      (any_key_iff _ n).mpr h2
    have hupd : updateRows (t ++ [(n, x)]) n y = t ++ [(n, y)] := by
      unfold updateRows
      rw [List.map_append]
      congr 1
      · exact updateRows_of_not_mem t n y h
      · simp
    have hp2 : put (t ++ [(n, x)]) n y = (t ++ [(n, y)], (n, y)) := by
      rw [show put (t ++ [(n, x)]) n y =
        (updateRows (t ++ [(n, x)]) n y, (n, y)) from by simp [put, ha2], hupd]
    rw [hp2] at e2
    injection e2 with e2a e2b
    subst e2a
    subst e2b
    refine ⟨rfl, rfl, ?_, ?_⟩
    · rw [List.countP_append, countP_key_eq_zero t n h]
      simp
    · have hu2 : UniqueKeys (t ++ [(n, y)]) := uniqueKeys_append t n y hu h
      have hmem : ((n, y) : Row) ∈ t ++ [(n, y)] := by simp
      have hs : selectMessage (t ++ [(n, y)]) n = some y :=
        selectMessage_of_mem (t ++ [(n, y)]) n y hu2 hmem
      simp [get, hs]

theorem put_upsert_witness :
    UniqueKeys ([] : Table) ∧
    put ([] : Table) "a" "x" = ([("a", "x")], ("a", "x")) ∧
    put ([("a", "x")] : Table) "a" "y" = ([("a", "y")], ("a", "y")) ∧
    (([("a", "y")] : Table).countP (fun r => r.1 == "a") = 1 ∧
      get ([("a", "y")] : Table) "a" = ([("a", "y")], "y")) := by
  have h := put_upsert [] "a" "x" "y" (by decide) [("a", "x")] ("a", "x")
    [("a", "y")] ("a", "y") (by decide) (by decide)
  exact ⟨by decide, by decide, by decide, h.2.2⟩

/-- Claim C8: starting from any table with at most one row per keyword,
every sequence of store operations leaves a table with at most one row per
keyword. -/
theorem uniqueKeys_invariant (t : Table) (ops : List Op) (hu : UniqueKeys t) :
    UniqueKeys (applyOps t ops) := by
  induction ops generalizing t with
  | nil => exact hu
  | cons op ops ih =>
    refine ih (applyOp t op) ?_
    cases op with
    | putOp n s =>
      show UniqueKeys (put t n s).1
      by_cases h : n ∈ t.map Prod.fst
      · have ha : (t.any (fun r => r.1 == n)) = true := (any_key_iff t n).mpr h
        simp only [put, ha, if_true]
        show UniqueKeys (updateRows t n s)
        unfold UniqueKeys
        rw [keys_updateRows]
        exact hu
      · have ha : (t.any (fun r => r.1 == n)) = false :=
          Bool.eq_false_iff.mpr (fun hc => h ((any_key_iff t n).mp hc))
        simp only [put, ha, Bool.false_eq_true, if_false]
        exact uniqueKeys_append t n s hu h
    | getOp n => exact hu
    | postOp n s =>
      show UniqueKeys (post t n s).1
      cases hs : selectMessage t n with
      | none =>
        simp only [post, hs]
        exact hu
      | some m =>
        simp only [post, hs]
        show UniqueKeys (updateRows t n s)
        unfold UniqueKeys
        rw [keys_updateRows]
        exact hu
    | deleteOp n =>
      show UniqueKeys (delete t n).1
      cases hs : selectMessage t n with
      | none =>
        simp only [delete, hs]
        exact hu
      | some m =>
        simp only [delete, hs]
        show UniqueKeys (deleteRows t n)
        exact hu.sublist ((List.filter_sublist t).map Prod.fst)
    | catalogOp => exact hu
    | searchOp s => exact hu

theorem uniqueKeys_invariant_witness :
    UniqueKeys ([] : Table) ∧
    UniqueKeys (applyOps []
      [Op.putOp "a" "x", Op.putOp "a" "y", Op.postOp "a" "z",
       Op.putOp "b" "w", Op.deleteOp "a", Op.getOp "b", Op.catalogOp,
       Op.searchOp "w"]) :=
  ⟨by decide, uniqueKeys_invariant _ _ (by decide)⟩

/-- Claim C3 (amended): `put` swallows every integrity error, not only the
uniqueness conflict: any fault of kind `psycopg2.IntegrityError` raised
during the insert triggers rollback and the update fallback, returning
`(name, snippet)`; a non-integrity persistence fault propagates to the caller
after rollback, leaving the table unchanged. -/
theorem putFault_integrity (t : Table) (n s : String) (f : Fault) :
    (f.isIntegrityError = true →
      putFault t n s (some f) = (updateRows t n s, Except.ok (n, s))) ∧
    (f.isIntegrityError = false →
      putFault t n s (some f) = (t, Except.error f)) := by
  constructor <;> intro h <;> simp [putFault, runInsert, h]

theorem putFault_integrity_witness :
    Fault.isIntegrityError Fault.otherIntegrity = true ∧
    putFault [("a", "x")] "a" "y" (some Fault.otherIntegrity) =
      ([("a", "y")], Except.ok ("a", "y")) ∧
    Fault.isIntegrityError Fault.otherFault = false ∧
    putFault [("a", "x")] "a" "y" (some Fault.otherFault) =
      ([("a", "x")], Except.error Fault.otherFault) := by
  have h1 := (putFault_integrity [("a", "x")] "a" "y" Fault.otherIntegrity).1 rfl
  have h2 := (putFault_integrity [("a", "x")] "a" "y" Fault.otherFault).2 rfl
  refine ⟨rfl, ?_, rfl, h2⟩
  rw [h1, show updateRows [("a", "x")] "a" "y" = [("a", "y")] from by decide]

/-- Claim C3, counterexample to the claim as stated: an integrity fault that
is not the uniqueness violation (another kind of constraint violation) is
also caught by `except psycopg2.IntegrityError`, so `put` falls back to the
update and returns `(name, snippet)` instead of propagating the fault. -/
theorem putFault_counterexample :
    Fault.otherIntegrity ≠ Fault.uniqueViolation ∧
    Fault.isIntegrityError Fault.otherIntegrity = true ∧
    (putFault [] "a" "y" (some Fault.otherIntegrity)).2 ≠
      Except.error Fault.otherIntegrity ∧
    (putFault [] "a" "y" (some Fault.otherIntegrity)).2 = Except.ok ("a", "y") := by
  refine ⟨by decide, rfl, ?_, rfl⟩
  intro hcontra
  simp [putFault, runInsert, Fault.isIntegrityError] at hcontra

/-- Claim C4: `catalog()` returns the sentinel "404 No Snippets Found" if and
only if the table has zero rows; otherwise it returns all stored keywords in
lexicographically ascending order (and never mutates the table). -/
theorem catalog_spec (t : Table) :
    (catalog t).1 = t ∧
    ((catalog t).2 = CatalogResult.sentinel "404 No Snippets Found" ↔ t = []) ∧
    (t ≠ [] → ∃ ks, (catalog t).2 = CatalogResult.keywords ks ∧
      List.Perm ks (t.map Prod.fst) ∧ List.Sorted (fun a b => a ≤ b) ks) := by
  refine ⟨rfl, ?_, ?_⟩
  · cases t with
    | nil => simp [catalog, List.insertionSort]
    | cons r t =>
      have hne := insertionSort_cons_not_empty r.1 (t.map Prod.fst)
      show (if (List.insertionSort (fun a b => a ≤ b) (r.1 :: t.map Prod.fst)).isEmpty then
          CatalogResult.sentinel "404 No Snippets Found"
        else CatalogResult.keywords
          (List.insertionSort (fun a b => a ≤ b) (r.1 :: t.map Prod.fst))) =
        CatalogResult.sentinel "404 No Snippets Found" ↔ r :: t = []
      rw [hne]
      simp
  · intro ht
    cases t with
    | nil => exact absurd rfl ht
    | cons r t =>
      have hne := insertionSort_cons_not_empty r.1 (t.map Prod.fst)
      refine ⟨List.insertionSort (fun a b => a ≤ b) (r.1 :: t.map Prod.fst), ?_, ?_, ?_⟩
      · show (if (List.insertionSort (fun a b => a ≤ b) (r.1 :: t.map Prod.fst)).isEmpty then
            CatalogResult.sentinel "404 No Snippets Found"
          else CatalogResult.keywords
            (List.insertionSort (fun a b => a ≤ b) (r.1 :: t.map Prod.fst))) =
          CatalogResult.keywords
            (List.insertionSort (fun a b => a ≤ b) (r.1 :: t.map Prod.fst))
        rw [hne]
        simp
      · exact List.perm_insertionSort _ _
      · exact List.sorted_insertionSort _ _

theorem catalog_spec_witness :
    (([("b", "1"), ("a", "2"), ("c", "3")] : Table) ≠ []) ∧
    (∃ ks, (catalog [("b", "1"), ("a", "2"), ("c", "3")]).2 = CatalogResult.keywords ks ∧
      List.Perm ks (([("b", "1"), ("a", "2"), ("c", "3")] : Table).map Prod.fst) ∧
      List.Sorted (fun a b => a ≤ b) ks) :=
  ⟨by simp, (catalog_spec [("b", "1"), ("a", "2"), ("c", "3")]).2.2 (by simp)⟩

/-! LIKE matching lemmas for `search`. -/

theorem likeMatch_nil (cs : List Char) : likeMatch [] cs = cs.isEmpty := by
  simp [likeMatch]

theorem likeMatch_percent_nil (pt : List Char) :
    likeMatch ('%' :: pt) [] = likeMatch pt [] := by
  simp [likeMatch]

theorem likeMatch_percent_cons (pt : List Char) (c : Char) (ct : List Char) :
    likeMatch ('%' :: pt) (c :: ct) =
      (likeMatch pt (c :: ct) || likeMatch ('%' :: pt) ct) := by
  rw [likeMatch]
  simp

theorem likeMatch_lit_nil (p : Char) (pt : List Char) (hp : p ≠ '%') :
    likeMatch (p :: pt) [] = false := by
  simp [likeMatch, hp]

theorem likeMatch_lit_cons (p : Char) (pt : List Char) (c : Char) (ct : List Char)
    (hp : p ≠ '%') :
    likeMatch (p :: pt) (c :: ct) =
      ((if p = '_' then true else p == c) && likeMatch pt ct) := by
  rw [likeMatch]
  simp [hp]

theorem likeMatch_percent_all (cs : List Char) : likeMatch ['%'] cs = true := by
  induction cs with
  | nil =>
    rw [likeMatch_percent_nil, likeMatch_nil]
    rfl
  | cons c ct ih =>
    rw [likeMatch_percent_cons, ih, Bool.or_true]

theorem likeMatch_percent_iff (pt cs : List Char) :
    likeMatch ('%' :: pt) cs = true ↔ ∃ l r, cs = l ++ r ∧ likeMatch pt r = true := by
  induction cs with
  | nil =>
    rw [likeMatch_percent_nil]
    constructor
    · intro h
      exact ⟨[], [], rfl, h⟩
    · rintro ⟨l, r, hlr, h⟩
      rcases List.append_eq_nil.mp hlr.symm with ⟨rfl, rfl⟩
      exact h
  | cons c ct ih =>
    rw [likeMatch_percent_cons, Bool.or_eq_true, ih]
    constructor
    · rintro (h | ⟨l, r, rfl, h⟩)
      · exact ⟨[], c :: ct, rfl, h⟩
      · exact ⟨c :: l, r, rfl, h⟩
    · rintro ⟨l, r, hlr, h⟩
      cases l with
      | nil =>
        left
        rwa [show r = c :: ct from by simpa using hlr.symm] at h
      | cons a l =>
        right
        rw [List.cons_append] at hlr
        injection hlr with h1 h2
        subst h1
        exact ⟨l, r, h2, h⟩

theorem likeMatch_literal_append (s pt : List Char) :
    ∀ cs, (∀ c ∈ s, c ≠ '%' ∧ c ≠ '_') →
      (likeMatch (s ++ pt) cs = true ↔ ∃ ct, cs = s ++ ct ∧ likeMatch pt ct = true) := by
  induction s with
  | nil =>
    intro cs _
    simp only [List.nil_append]
    constructor
    · intro h
      exact ⟨cs, rfl, h⟩
    · rintro ⟨ct, rfl, h⟩
      exact h
  | cons a s ih =>
    intro cs hs
    have ha := hs a (List.mem_cons_self a s)
    have hs2 : ∀ c ∈ s, c ≠ '%' ∧ c ≠ '_' := fun c hc => hs c (List.mem_cons_of_mem a hc)
    cases cs with
    | nil =>
      rw [List.cons_append, likeMatch_lit_nil a (s ++ pt) ha.1]
      constructor
      · intro h
        cases h
      · rintro ⟨ct, hct, h⟩
        rw [List.cons_append] at hct
        cases hct
    | cons c ct =>
      rw [List.cons_append, likeMatch_lit_cons a (s ++ pt) c ct ha.1, if_neg ha.2,
        Bool.and_eq_true, beq_iff_eq, ih ct hs2]
      constructor
      · rintro ⟨rfl, ct2, rfl, h⟩
        exact ⟨ct2, rfl, h⟩
      · rintro ⟨ct2, hct, h⟩
        rw [List.cons_append] at hct
        injection hct with h1 h2
        exact ⟨h1.symm, ct2, h2, h⟩

theorem likeMatch_pattern_iff (s cs : List Char)
    (hs : ∀ c ∈ s, c ≠ '%' ∧ c ≠ '_') :
    likeMatch ('%' :: (s ++ ['%'])) cs = true ↔ ∃ l r, cs = l ++ (s ++ r) := by
  rw [likeMatch_percent_iff]
  constructor
  · rintro ⟨l, r, rfl, h⟩
    rw [likeMatch_literal_append s ['%'] r hs] at h
    rcases h with ⟨ct, rfl, _⟩
    exact ⟨l, ct, rfl⟩
  · rintro ⟨l, r, rfl⟩
    refine ⟨l, s ++ r, rfl, ?_⟩
    rw [likeMatch_literal_append s ['%'] (s ++ r) hs]
    exact ⟨r, rfl, likeMatch_percent_all r⟩

theorem likePattern_eq (s : String) : likePattern s = '%' :: (s.data ++ ['%']) := rfl

/-- Claim C5 (amended): `search` interpolates the raw search string into the
SQL text, so only strings that leave that SQL well formed and escape free are
matched as substrings: for a search string free of the LIKE wildcard
metacharacters `%` and `_`, of the single quote (codepoint 39, which ends the
SQL string literal early: a syntax error or injected statements), and of the
backslash (codepoint 92, the default LIKE escape character), `search` returns
exactly the rows whose message contains the string as a literal substring; a
string containing wildcards matches as a LIKE pattern instead.  When no row
matches, it returns the structured sentinel pairing the fixed message with
the queried string, and it never mutates the table. -/
theorem search_spec (t : Table) (s : String)
    (hq : ∀ c ∈ s.data, c ≠ '%' ∧ c ≠ '_' ∧ c ≠ Char.ofNat 39 ∧ c ≠ Char.ofNat 92) :
    (search t s).1 = t ∧
    ((∀ r ∈ t, ¬∃ l rr, r.2.data = l ++ (s.data ++ rr)) →
      (search t s).2 =
        SearchResult.sentinel "404 No Matching Snippets Found Containing" s) ∧
    ((∃ r ∈ t, ∃ l rr, r.2.data = l ++ (s.data ++ rr)) →
      ∃ rs, (search t s).2 = SearchResult.rows rs ∧
        ∀ r : Row, r ∈ rs ↔ r ∈ t ∧ ∃ l rr, r.2.data = l ++ (s.data ++ rr)) := by
  have hs : ∀ c ∈ s.data, c ≠ '%' ∧ c ≠ '_' :=
    fun c hc => ⟨(hq c hc).1, (hq c hc).2.1⟩
  have hiff : ∀ r : Row, (likeMatch (likePattern s) r.2.data = true) ↔
      ∃ l rr, r.2.data = l ++ (s.data ++ rr) := by
    intro r
    rw [likePattern_eq, likeMatch_pattern_iff s.data r.2.data hs]
  refine ⟨rfl, ?_, ?_⟩
  · intro h
    have hf : t.filter (fun r => likeMatch (likePattern s) r.2.data) = [] := by
      rw [List.filter_eq_nil_iff]
      intro r hr
      rw [hiff r]
      exact h r hr
    show (if (t.filter (fun r => likeMatch (likePattern s) r.2.data)).isEmpty then
        SearchResult.sentinel "404 No Matching Snippets Found Containing" s
      else SearchResult.rows (t.filter (fun r => likeMatch (likePattern s) r.2.data))) =
      SearchResult.sentinel "404 No Matching Snippets Found Containing" s
    rw [hf]
    rfl
  · rintro ⟨r0, hr0, hex⟩
    have hmem : r0 ∈ t.filter (fun r => likeMatch (likePattern s) r.2.data) := by
      rw [List.mem_filter]
      exact ⟨hr0, (hiff r0).mpr hex⟩
    have hne : (t.filter (fun r => likeMatch (likePattern s) r.2.data)).isEmpty = false := by
      cases hf : t.filter (fun r => likeMatch (likePattern s) r.2.data) with
      | nil =>
        rw [hf] at hmem
        cases hmem
      | cons a l => rfl
    refine ⟨t.filter (fun r => likeMatch (likePattern s) r.2.data), ?_, ?_⟩
    · show (if (t.filter (fun r => likeMatch (likePattern s) r.2.data)).isEmpty then
          SearchResult.sentinel "404 No Matching Snippets Found Containing" s
        else SearchResult.rows (t.filter (fun r => likeMatch (likePattern s) r.2.data))) =
        SearchResult.rows (t.filter (fun r => likeMatch (likePattern s) r.2.data))
      rw [hne]
      simp
    · intro r
      rw [List.mem_filter, hiff r]

theorem search_spec_witness :
    (∀ c ∈ "hello".data, c ≠ '%' ∧ c ≠ '_' ∧ c ≠ Char.ofNat 39 ∧ c ≠ Char.ofNat 92) ∧
    (∃ rs, (search [("k1", "hello world"), ("k2", "goodbye")] "hello").2 =
        SearchResult.rows rs ∧
      ∀ r : Row, r ∈ rs ↔ r ∈ ([("k1", "hello world"), ("k2", "goodbye")] : Table) ∧
        ∃ l rr, r.2.data = l ++ ("hello".data ++ rr)) := by
  refine ⟨by decide, ?_⟩
  exact (search_spec [("k1", "hello world"), ("k2", "goodbye")] "hello" (by decide)).2.2
    ⟨("k1", "hello world"), by simp, [], " world".data, by decide⟩

/-- Claim C5, counterexample to the claim as stated: the search string is
interpolated into a LIKE pattern, so a wildcard metacharacter in it keeps its
LIKE meaning: `search("_")` matches the message `"a"` and returns that row,
although `"_"` does not occur in `"a"` as a literal substring. -/
theorem search_counterexample :
    search [("k", "a")] "_" = ([("k", "a")], SearchResult.rows [("k", "a")]) ∧
    ¬∃ l rr, ("a".data : List Char) = l ++ ("_".data ++ rr) := by
  constructor
  · have h1 : likeMatch (likePattern "_") ("a" : String).data = true := by
      rw [likePattern_eq]
      show likeMatch ['%', '_', '%'] ['a'] = true
      rw [likeMatch_percent_cons, likeMatch_lit_cons '_' ['%'] 'a' [] (by decide),
        if_pos rfl, likeMatch_percent_nil, likeMatch_nil]
      rfl
    have hf : ([("k", "a")] : Table).filter
        (fun r => likeMatch (likePattern "_") r.2.data) = [("k", "a")] := by
      simp [List.filter_cons, h1]
    simp [search, hf]
  · rintro ⟨l, rr, h⟩
    rw [show ("a".data : List Char) = ['a'] from rfl,
      show ("_".data : List Char) = ['_'] from rfl] at h
    cases l with
    | nil =>
      injection h with h1 h2
      exact absurd h1 (by decide)
    | cons a l =>
      rw [List.cons_append] at h
      injection h with h1 h2
      exact absurd (List.append_eq_nil.mp h2.symm).2 (List.cons_ne_nil _ _)

/-- Claim C10: searching with the empty string matches every row: the LIKE
pattern degenerates to `%%`, which every message satisfies, so on a non-empty
table `search("")` returns all rows and never the sentinel. -/
theorem search_empty_string (t : Table) (h : t ≠ []) :
    search t "" = (t, SearchResult.rows t) := by
  have hall : ∀ cs : List Char, likeMatch (likePattern "") cs = true := by
    intro cs
    rw [likePattern_eq]
    show likeMatch ['%', '%'] cs = true
    cases cs with
    | nil =>
      rw [likeMatch_percent_nil, likeMatch_percent_nil, likeMatch_nil]
      rfl
    | cons c ct =>
      rw [likeMatch_percent_cons, likeMatch_percent_all, Bool.true_or]
  have hf : t.filter (fun r => likeMatch (likePattern "") r.2.data) = t :=
    List.filter_eq_self.mpr (fun r _ => hall r.2.data)
  have hne : t.isEmpty = false := by
    cases t with
    | nil => exact absurd rfl h
    | cons a l => rfl
  simp [search, hf, hne]

theorem search_empty_string_witness :
    (([("k", "v")] : Table) ≠ []) ∧
    search [("k", "v")] "" = ([("k", "v")], SearchResult.rows [("k", "v")]) :=
  ⟨by simp, search_empty_string [("k", "v")] (by simp)⟩

end Snippets
